import Mathlib

/-!
Verification development for the layout core of the neoscore/brown repository.

The development shallowly embeds the Python sources:

* `src/brown/utils/base_unit.py` — the ratio-based unit system (`BaseUnit`).
* `src/neoscore/western/staff.py` — `Staff`: active-modifier indices and the
  per-staff fringe layout algorithm.
* `src/neoscore/western/staff_group.py` — `StaffGroup`: the isolated fringe
  layout variant and the cross-staff alignment step.
* `src/neoscore/western/staff_fringe_layout.py` — the `StaffFringeLayout` value.

Modelling conventions:

* Python `int` and `float` values are embedded as `PyNum` (an integer or a
  rational).  Float arithmetic is idealised as exact rational arithmetic; no
  property proved here depends on rounding.
* Length values (`neoscore.core.units.Unit` and subclasses) appearing in the
  layout code are embedded by their physical magnitude in base units, as a
  rational number.  Unit arithmetic and comparison convert operands by ratio
  before combining, so base-unit magnitudes compose exactly.
* Raising an exception is embedded as returning `Except.error` carrying a
  `PyErr` value naming the Python exception class.
-/

namespace NeoscoreSpec

/-- The Python exception classes relevant to the embedded code.
`typeConversionError` never occurs in the source; it appears only in the
specification text, and is included so that statements about the specified
error class can be written down and compared with the actual one.
`nonIntegerPow` marks the boundary of the rational model: Python `**` with a
non-integer exponent produces an irrational float (or complex) value that the
rational embedding does not represent. -/
inductive PyErr where
  | typeError
  | typeConversionError
  | zeroDivisionError
  | nonIntegerPow
  | attributeError
  | noClefError
deriving DecidableEq, Repr

/-- A Python number: an `int` or a `float` (idealised as an exact rational). -/
inductive PyNum where
  | i (n : ℤ)
  | f (q : ℚ)
deriving DecidableEq, Repr

/-- The numeric magnitude of a Python number. -/
def PyNum.toQ : PyNum → ℚ
  | .i n => (n : ℚ)
  | .f q => q

/-- Python `+` on numbers: `int + int` is an `int`, otherwise a `float`. -/
def PyNum.add (a b : PyNum) : PyNum :=
  match a, b with
  | .i m, .i n => .i (m + n)
  | _, _ => .f (a.toQ + b.toQ)

/-- Python `-` on numbers. -/
def PyNum.sub (a b : PyNum) : PyNum :=
  match a, b with
  | .i m, .i n => .i (m - n)
  | _, _ => .f (a.toQ - b.toQ)

/-- Python `*` on numbers. -/
def PyNum.mul (a b : PyNum) : PyNum :=
  match a, b with
  | .i m, .i n => .i (m * n)
  | _, _ => .f (a.toQ * b.toQ)

/-- Python `/` on numbers: always a `float`; raises `ZeroDivisionError` on a
zero divisor. -/
def PyNum.div (a b : PyNum) : Except PyErr PyNum :=
  if b.toQ = 0 then .error .zeroDivisionError
  else .ok (.f (a.toQ / b.toQ))

/-- Python `//` on numbers: floor division; `int // int` is an `int`,
otherwise a `float`; raises `ZeroDivisionError` on a zero divisor. -/
def PyNum.floordiv (a b : PyNum) : Except PyErr PyNum :=
  if b.toQ = 0 then .error .zeroDivisionError
  else
    match a, b with
    | .i m, .i n => .ok (.i (Int.fdiv m n))
    | _, _ => .ok (.f ((⌊a.toQ / b.toQ⌋ : ℤ) : ℚ))

/-- Python `**` on numbers, restricted to integer exponents (including float
exponents with whole value, which yield floats).  A non-integer exponent
produces an irrational (or complex) result outside the rational model and is
mapped to the model-boundary marker `nonIntegerPow`. -/
def PyNum.pypow (a b : PyNum) : Except PyErr PyNum :=
  match b with
  | .i n =>
    if 0 ≤ n then
      match a with
      | .i m => .ok (.i (m ^ n.toNat))
      | .f q => .ok (.f (q ^ n.toNat))
    else
      if a.toQ = 0 then .error .zeroDivisionError
      else .ok (.f (a.toQ ^ n))
  | .f e =>
    if e.den = 1 then
      if e.num < 0 ∧ a.toQ = 0 then .error .zeroDivisionError
      else .ok (.f (a.toQ ^ e.num))
    else .error .nonIntegerPow

/-- A concrete `BaseUnit` subclass: identified by its name, carrying its
`_base_units_per_self_unit` class constant.  Two unit values are of the same
Python class exactly when their `UnitType`s are equal.  In the source all
ratios are positive constants. -/
structure UnitType where
  name : String
  base_units_per_self_unit : ℚ
deriving DecidableEq, Repr

/-- A Python value passed to `BaseUnit.__init__` or to a `BaseUnit` operator:
a plain number, a unit value (of class `t` with stored value `v`), or any
other object. -/
inductive PyVal where
  | num (n : PyNum)
  | unitv (t : UnitType) (v : PyNum)
  | other
deriving DecidableEq, Repr

/-- `BaseUnit.__init__` (src/brown/utils/base_unit.py lines 39-60), embedded
as the computation of the stored `self.value` for a new value of class
`target`:

* an `int` or `float` is stored directly;
* a value of the same class has its stored value copied;
* a value of another unit class is converted:
  `(value._base_units_per_self_unit * value.value) / self._base_units_per_self_unit`.
  Python `/` always yields a `float`; the result is snapped to an `int` when
  it is a whole number;
* anything else raises `TypeError`.

The source plays the conversion on Python numbers whose ratio constants are
never zero; the rational division here is total, with `q / 0 = 0`. -/
def unitInit (target : UnitType) : PyVal → Except PyErr PyNum
  | .num n => .ok n
  | .unitv t v =>
    if t = target then .ok v
    else
      let q : ℚ := (t.base_units_per_self_unit * v.toQ) / target.base_units_per_self_unit
      .ok (if q.den = 1 then .i q.num else .f q)
  | .other => .error .typeError

/-- A `BaseUnit` instance: its class together with its stored `self.value`. -/
structure UnitVal where
  utype : UnitType
  value : PyNum
deriving DecidableEq, Repr

/-- The six comparison dunder methods of `BaseUnit`. -/
inductive CmpOp where
  | lt | le | eq | ne | gt | ge
deriving DecidableEq, Repr

/-- `BaseUnit.__lt__` … `__ge__` (base_unit.py lines 69-85): each converts the
right operand through the constructor (`self.__class__(other)`) and compares
the stored numbers.  Python comparison of `int`/`float` values is numeric. -/
def UnitVal.cmp (op : CmpOp) (u : UnitVal) (rhs : PyVal) : Except PyErr Bool :=
  (unitInit u.utype rhs).map fun m =>
    match op with
    | .lt => decide (u.value.toQ < m.toQ)
    | .le => decide (u.value.toQ ≤ m.toQ)
    | .eq => decide (u.value.toQ = m.toQ)
    | .ne => decide (u.value.toQ ≠ m.toQ)
    | .gt => decide (m.toQ < u.value.toQ)
    | .ge => decide (m.toQ ≤ u.value.toQ)

/-- The numeric meaning of each Python comparison on magnitudes, used to
state what the comparison dunders compute after conversion. -/
def cmpQ (op : CmpOp) (x y : ℚ) : Bool :=
  match op with
  | .lt => decide (x < y)
  | .le => decide (x ≤ y)
  | .eq => decide (x = y)
  | .ne => decide (x ≠ y)
  | .gt => decide (y < x)
  | .ge => decide (y ≤ x)

/-- The six arithmetic dunder methods of `BaseUnit`. -/
inductive ArithOp where
  | add | sub | mul | div | floordiv | pow
deriving DecidableEq, Repr

/-- The raw Python-number combination performed by each arithmetic dunder of
`BaseUnit` (`self.value <op> self.__class__(other).value`). -/
def rawArith (op : ArithOp) (a m : PyNum) : Except PyErr PyNum :=
  match op with
  | .add => .ok (a.add m)
  | .sub => .ok (a.sub m)
  | .mul => .ok (a.mul m)
  | .div => a.div m
  | .floordiv => a.floordiv m
  | .pow => a.pypow m

/-- `BaseUnit.__add__` … `__pow__` (base_unit.py lines 89-109): each converts
the right operand through the constructor (`self.__class__(other)`),
combines the stored numbers with the Python operator, and wraps the raw
number in `self.__class__` (the number branch of the constructor stores it
directly).  A raised exception propagates.  `__pow__` is embedded for its
two-argument form (`modulo=None`). -/
def UnitVal.arith (op : ArithOp) (u : UnitVal) (rhs : PyVal) :
    Except PyErr UnitVal :=
  match unitInit u.utype rhs with
  | .error e => .error e
  | .ok m =>
    match rawArith op u.value m with
    | .error e => .error e
    | .ok raw =>
      match unitInit u.utype (.num raw) with
      | .ok v => .ok ⟨u.utype, v⟩
      | .error e => .error e

/-!
### The neoscore layout model

Length values are embedded by their base-unit magnitude as a rational.
Data supplied by external collaborators (font metrics: clef bounding
rectangles, key/time signature visual widths) and by missing leaf modules
(the descendant scan of `PositionedObject`, `Flowable.descendant_pos_x`)
are modelled as given data on the structures below; all algorithms over that
data are translated from `staff.py` and `staff_group.py`.
-/

/-- A bounding rectangle's width, as delivered by the font-metrics
collaborator (`clef.bounding_rect`). -/
structure BoundingRect where
  width : ℚ
deriving DecidableEq, Repr

/-- A clef, as seen by the layout code: its bounding rectangle (font metrics)
and its `middle_c_staff_position` (a staff-position length).  The source also
reads `clef.clef_type.glyph_name` inside a debug guard in
`staff_group.py`; that read has no effect on any computed value (it only
selects whether a debug `print` fires) and is not modelled. -/
structure Clef where
  bounding_rect : BoundingRect
  middle_c_staff_position : ℚ
deriving DecidableEq, Repr

/-- A key signature, as seen by the layout code: its `visual_width`. -/
structure KeySignature where
  visual_width : ℚ
deriving DecidableEq, Repr

/-- A time signature, as seen by the layout code: its `visual_width`. -/
structure TimeSignature where
  visual_width : ℚ
deriving DecidableEq, Repr

/-- A `PositionedObject` descendant of a staff, as seen by
`Staff.distance_to_next_of_type`: `oid` stands for Python object identity
(`!=` on `PositionedObject`s compares identity), `cls` for its exact Python
class (`descendants_of_exact_class`), and `x` for `staff.map_x_to(obj)`, its
x offset from the staff. -/
structure StaffObj where
  oid : ℕ
  cls : ℕ
  x : ℚ
deriving DecidableEq, Repr

/-- A line-break location (`NewLine`).  The fringe-layout code reads only its
`flowable_x`, the start offset of the line in its flowable's timeline. -/
structure NewLine where
  flowable_x : ℚ
deriving DecidableEq, Repr

/-- A staff, with the data the embedded algorithms read:

* `line_spacing` — the base-unit size of one staff unit (`Staff._make_unit_class`
  gives the staff's unit class a ratio of `line_spacing.base_value`);
* `length` — the `breakable_length`;
* `pos_in_flowable` — `staff.flowable.descendant_pos_x(staff)`, the staff's
  offset in its flowable's timeline;
* `clefEntries` / `keySigEntries` / `timeSigEntries` — the raw
  (position-in-staff, element) pairs produced by the descendant scans in the
  `clefs` / `key_signatures` / `time_signatures` properties, before sorting;
* `objects` — the descendants seen by `distance_to_next_of_type`.

The lazily-cached sorted indices are modelled by their computed values: the
caches are write-through and are only ever filled with exactly these values. -/
structure Staff where
  line_spacing : ℚ
  length : ℚ
  pos_in_flowable : ℚ
  clefEntries : List (ℚ × Clef)
  keySigEntries : List (ℚ × KeySignature)
  timeSigEntries : List (ℚ × TimeSignature)
  objects : List StaffObj
deriving DecidableEq, Repr

/-- `staff.unit(v)`: a length of `v` staff units, in base units. -/
def Staff.unit (s : Staff) (v : ℚ) : ℚ :=
  v * s.line_spacing

/-- Comparison used to sort modifier indices by position
(`result.sort(key=lambda tup: tup[0])`; Python's sort is stable, and no
property proved here depends on the order of entries sharing a position). -/
def posLE {α : Type} (a b : ℚ × α) : Prop := a.1 ≤ b.1

instance {α : Type} : DecidableRel (@posLE α) :=
  fun a b => inferInstanceAs (Decidable (a.1 ≤ b.1))

instance {α : Type} : IsTotal (ℚ × α) posLE :=
  ⟨fun a b => le_total a.1 b.1⟩

instance {α : Type} : IsTrans (ℚ × α) posLE :=
  ⟨fun _ _ _ hab hbc => le_trans hab hbc⟩

/-- `Staff.clefs` (staff.py lines 141-153): the clef entries sorted by
position in the staff. -/
def Staff.clefs (s : Staff) : List (ℚ × Clef) :=
  s.clefEntries.insertionSort posLE

/-- `Staff.key_signatures` (staff.py lines 162-176). -/
def Staff.key_signatures (s : Staff) : List (ℚ × KeySignature) :=
  s.keySigEntries.insertionSort posLE

/-- `Staff.time_signatures` (staff.py lines 180-194). -/
def Staff.time_signatures (s : Staff) : List (ℚ × TimeSignature) :=
  s.timeSigEntries.insertionSort posLE

/-- `Staff.active_clef_at` (staff.py lines 155-160): the first entry of the
reversed sorted clef list whose position is `≤ pos_x`, if any. -/
def Staff.active_clef_at (s : Staff) (pos_x : ℚ) : Option Clef :=
  (s.clefs.reverse.find? fun e => decide (e.1 ≤ pos_x)).map Prod.snd

/-- `Staff.active_key_signature_at` (staff.py lines 196-201). -/
def Staff.active_key_signature_at (s : Staff) (pos_x : ℚ) : Option KeySignature :=
  (s.key_signatures.reverse.find? fun e => decide (e.1 ≤ pos_x)).map Prod.snd

/-- The inline time-signature lookup shared by both fringe-layout functions:
`next((sig for x, sig in self.time_signatures if x == pos_x), None)`. -/
def Staff.time_signature_exactly_at (s : Staff) (pos_x : ℚ) :
    Option TimeSignature :=
  (s.time_signatures.find? fun e => decide (e.1 = pos_x)).map Prod.snd

/-- `Staff.middle_c_at` (staff.py lines 203-214): the middle-c staff position
of the active clef; raises `NoClefError` when no clef is active. -/
def Staff.middle_c_at (s : Staff) (pos_x : ℚ) : Except PyErr ℚ :=
  match s.active_clef_at pos_x with
  | none => .error .noClefError
  | some clef => .ok clef.middle_c_staff_position

/-- `Staff.breakable_length` (staff.py lines 108-112). -/
def Staff.breakable_length (s : Staff) : ℚ :=
  s.length

/-- The body of the loop in `Staff.distance_to_next_of_type` (staff.py lines
133-136): keep the closest x strictly between `start_x` and the best so far.
The starting sentinel `Unit(float("inf"))` is embedded as `none`. -/
def closestStep (start_x : ℚ) (acc : Option ℚ) (item : StaffObj) : Option ℚ :=
  match acc with
  | none => if start_x < item.x then some item.x else none
  | some c => if start_x < item.x ∧ item.x < c then some item.x else acc

/-- `Staff.distance_to_next_of_type` (staff.py lines 116-139): the x distance
to the next other descendant of the object's exact class, or the remaining
breakable length when there is none. -/
def Staff.distance_to_next_of_type (s : Staff) (o : StaffObj) : ℚ :=
  let start_x := o.x
  let all_others_of_class :=
    s.objects.filter fun item => decide (item.cls = o.cls) && decide (item.oid ≠ o.oid)
  let closest_x : Option ℚ :=
    all_others_of_class.foldl (closestStep start_x) none
  match closest_x with
  | none => s.breakable_length - start_x
  | some c => c - start_x

/-- `StaffFringeLayout` (staff_fringe_layout.py): the per-layer left edges of
a staff's fringe at one break location.  The dataclass declares `Unit` fields,
but `Staff._fringe_layout_at_staff_pos_x` stores Python `None` in the
`clef`/`key_signature`/`time_signature` fields of layers with no active
element, so those fields are embedded as `Option ℚ`. -/
structure StaffFringeLayout where
  pos_x_in_staff : ℚ
  staff : ℚ
  clef : Option ℚ
  key_signature : Option ℚ
  time_signature : Option ℚ
deriving DecidableEq, Repr

namespace Staff

/-- `Staff._LEFT_PADDING` (pseudo-staff-units). -/
def LEFT_PADDING : ℚ := 1/2

/-- `Staff._TIME_SIG_PADDING` (pseudo-staff-units). -/
def TIME_SIG_PADDING : ℚ := 1/2

/-- `Staff._KEY_SIG_LEFT_PADDING` (pseudo-staff-units). -/
def KEY_SIG_LEFT_PADDING : ℚ := 1/2

/-- `Staff._fringe_layout_at_staff_pos_x` (staff.py lines 304-336): walk
right-to-left from a zero origin, reserving space for each active layer and
recording its left edge; inactive layers keep their initial `None`. -/
def fringe_layout_at_staff_pos_x (s : Staff) (pos_x : ℚ) : StaffFringeLayout :=
  let clef := s.active_clef_at pos_x
  let key_sig := s.active_key_signature_at pos_x
  let time_sig := s.time_signature_exactly_at pos_x
  let x0 : ℚ := 0
  let x1 :=
    match time_sig with
    | some ts => x0 - (ts.visual_width + s.unit TIME_SIG_PADDING)
    | none => x0
  let time_signature_fringe_pos :=
    match time_sig with
    | some _ => some x1
    | none => none
  let x2 :=
    match time_sig with
    | some _ => x1 - s.unit TIME_SIG_PADDING
    | none => x1
  let x3 :=
    match key_sig with
    | some ks => x2 - ks.visual_width
    | none => x2
  let key_signature_fringe_pos :=
    match key_sig with
    | some _ => some x3
    | none => none
  let x4 :=
    match key_sig with
    | some _ => x3 - s.unit KEY_SIG_LEFT_PADDING
    | none => x3
  let x5 :=
    match clef with
    | some c => x4 - c.bounding_rect.width
    | none => x4
  let clef_fringe_pos :=
    match clef with
    | some _ => some x5
    | none => none
  let x6 := x5 - s.unit LEFT_PADDING
  ⟨pos_x, x6, clef_fringe_pos, key_signature_fringe_pos, time_signature_fringe_pos⟩

/-- `Staff.fringe_layout_at` (staff.py lines 243-254): with a break location,
look up the staff position of the line start (`location.flowable_x -
flowable.descendant_pos_x(self)`, with no clamping) and compute the layout
there; with `None`, compute at staff position zero.  The per-location cache is
write-through and only ever holds this value. -/
def fringe_layout_at (s : Staff) (location : Option NewLine) : StaffFringeLayout :=
  match location with
  | some loc =>
    s.fringe_layout_at_staff_pos_x (loc.flowable_x - s.pos_in_flowable)
  | none => s.fringe_layout_at_staff_pos_x 0

end Staff

namespace StaffGroup

/-- `StaffGroup.LEFT_PADDING`. -/
def LEFT_PADDING : ℚ := 1/2

/-- `StaffGroup.RIGHT_PADDING`. -/
def RIGHT_PADDING : ℚ := 1

/-- `StaffGroup.TIME_SIG_LEFT_PADDING`. -/
def TIME_SIG_LEFT_PADDING : ℚ := 1/2

/-- `StaffGroup.KEY_SIG_LEFT_PADDING`. -/
def KEY_SIG_LEFT_PADDING : ℚ := 1/2

/-- `StaffGroup._fringe_layout_for_isolated_staff` (staff_group.py lines
69-118), the right-to-left walk at a resolved staff position.  The walk
starts from `-RIGHT_PADDING` staff units, and the three layer edges are
initialised to the running x (so an inactive layer records that numeric
value, not an absence).  The source's leftover debug guard
`(not time_sig) and (clef.clef_type.glyph_name == "fClef") and ...`
dereferences `clef` whenever no time signature is active, raising
`AttributeError` when `clef` is `None`; the guard's only other effect is a
debug `print`. -/
def fringe_layout_for_isolated_staff_at (staff : Staff) (staff_pos_x : ℚ) :
    Except PyErr StaffFringeLayout :=
  let x0 := -(staff.unit RIGHT_PADDING)
  let clef := staff.active_clef_at staff_pos_x
  let key_sig := staff.active_key_signature_at staff_pos_x
  let time_sig := staff.time_signature_exactly_at staff_pos_x
  match time_sig, clef with
  | none, none => .error .attributeError
  | _, _ =>
    let x1 :=
      match time_sig with
      | some ts => x0 - ts.visual_width
      | none => x0
    let time_signature_fringe_pos :=
      match time_sig with
      | some _ => x1
      | none => x0
    let x2 :=
      match time_sig with
      | some _ => x1 - staff.unit TIME_SIG_LEFT_PADDING
      | none => x1
    let x3 :=
      match key_sig with
      | some ks => x2 - ks.visual_width
      | none => x2
    let key_signature_fringe_pos :=
      match key_sig with
      | some _ => x3
      | none => x0
    let x4 :=
      match key_sig with
      | some _ => x3 - staff.unit KEY_SIG_LEFT_PADDING
      | none => x3
    let x5 :=
      match clef with
      | some c => x4 - c.bounding_rect.width
      | none => x4
    let clef_fringe_pos :=
      match clef with
      | some _ => x5
      | none => x0
    let x6 := x5 - staff.unit LEFT_PADDING
    .ok ⟨staff_pos_x, x6, some clef_fringe_pos, some key_signature_fringe_pos,
      some time_signature_fringe_pos⟩

/-- `StaffGroup._fringe_layout_for_isolated_staff`, entry point: resolve the
staff position of the line start, clamping a negative position (the first
line of a staff positioned at x > 0 in its flowable) to zero, then run the
right-to-left walk.  The walk is factored into
`fringe_layout_for_isolated_staff_at` (the source inlines it). -/
def fringe_layout_for_isolated_staff (staff : Staff) (location : Option NewLine) :
    Except PyErr StaffFringeLayout :=
  let staff_pos_x :=
    match location with
    | some loc =>
      let raw := loc.flowable_x - staff.pos_in_flowable
      if raw < 0 then 0 else raw
    | none => (0 : ℚ)
  fringe_layout_for_isolated_staff_at staff staff_pos_x

/-- `StaffGroup._align_layout` (staff_group.py lines 51-67): shift the
`staff`/`clef`/`key_signature` edges by the delta to the shared basis, leaving
`time_signature` alone.  In the source the layouts fed to this function come
from `_fringe_layout_for_isolated_staff` and always populate all edge fields
(Python would raise on `None + delta`); `Option.map` is exact on those
inputs. -/
def align_layout (layout : StaffFringeLayout) (staff_basis : ℚ) :
    StaffFringeLayout :=
  if layout.staff = staff_basis then layout
  else
    let delta := staff_basis - layout.staff
    ⟨layout.pos_x_in_staff,
      layout.staff + delta,
      layout.clef.map (· + delta),
      layout.key_signature.map (· + delta),
      layout.time_signature⟩

end StaffGroup

/-- A `StaffGroup`: its member staves.  The fringe-layout cache is modelled by
the computed layouts themselves (the cache is write-through). -/
structure StaffGroup where
  staves : List Staff
deriving DecidableEq, Repr

/-- The first loop of `StaffGroup.fringe_layout_at` (staff_group.py lines
38-42), collecting `(iter_staff, layout)` pairs; an exception raised by
`_fringe_layout_for_isolated_staff` propagates out. -/
def StaffGroup.collect_isolated (location : Option NewLine) :
    List Staff → Except PyErr (List (Staff × StaffFringeLayout))
  | [] => .ok []
  | iter_staff :: rest =>
    match StaffGroup.fringe_layout_for_isolated_staff iter_staff location with
    | .error e => .error e
    | .ok layout =>
      match StaffGroup.collect_isolated location rest with
      | .error e => .error e
      | .ok tail => .ok ((iter_staff, layout) :: tail)

/-- `StaffGroup.fringe_layout_at` (staff_group.py lines 30-49), as the list of
(staff, aligned layout) pairs it computes and caches on a cache miss: first
every member's isolated layout, with the minimum `staff` edge folded starting
from `ZERO` (the source folds `min` inside the same loop), then each layout
aligned to that basis.  The source finally returns the cache entry for the
requested staff; the claims below quantify over all members' cached layouts,
so the embedding returns the full list. -/
def StaffGroup.fringe_layout_at (g : StaffGroup) (location : Option NewLine) :
    Except PyErr (List (Staff × StaffFringeLayout)) :=
  match StaffGroup.collect_isolated location g.staves with
  | .error e => .error e
  | .ok isolated_layouts =>
    .ok (isolated_layouts.map fun pr =>
      (pr.1, StaffGroup.align_layout pr.2
        (isolated_layouts.foldl (fun m pr2 => min m pr2.2.staff) 0)))

/-!
### Concrete fixtures

Small concrete instances used to evaluate the embedded algorithms at
specific inputs (staff unit one base unit; widths in base units).
-/

/-- A staff with one clef of bounding width 2 at position 0 and no other
modifiers. -/
def exStaffA : Staff := ⟨1, 100, 0, [(0, ⟨⟨2⟩, 5⟩)], [], [], []⟩

/-- A staff with one (wider) clef of bounding width 5 at position 0. -/
def exStaffB : Staff := ⟨1, 100, 0, [(0, ⟨⟨5⟩, 5⟩)], [], [], []⟩

/-- A two-staff group whose members have clefs of different widths. -/
def exGroup : StaffGroup := ⟨[exStaffA, exStaffB]⟩

/-- A staff positioned at x = 5 in its flowable (a positive timeline
offset), with a clef of width 1 at position 0. -/
def exStaffOffset : Staff := ⟨1, 100, 5, [(0, ⟨⟨1⟩, 0⟩)], [], [], []⟩

/-- A group containing only `exStaffOffset`. -/
def exGroupOffset : StaffGroup := ⟨[exStaffOffset]⟩

/-- A staff with three descendant objects: two of class 0 (at x = 10 and
x = 30) and one of class 1 (at x = 20). -/
def exStaffObjs : Staff :=
  ⟨1, 100, 0, [(0, ⟨⟨2⟩, 5⟩)], [], [], [⟨1, 0, 10⟩, ⟨2, 0, 30⟩, ⟨3, 1, 20⟩]⟩

/-- The aligned fringe layouts `exGroup.fringe_layout_at none` computes: both
staves share the widest `staff` edge, `exStaffA`'s clef/key edges are shifted
by its delta, and `time_signature` edges are left unshifted. -/
def exGroupLayouts : List (Staff × StaffFringeLayout) :=
  [(exStaffA, ⟨0, -(13/2), some (-6), some (-4), some (-1)⟩),
   (exStaffB, ⟨0, -(13/2), some (-6), some (-1), some (-1)⟩)]

/-!
### Helper lemmas
-/

/-- Converting a unit value into a target class through the constructor
preserves the ratio formula `value * (source_ratio / target_ratio)` at the
level of numeric magnitudes: copying (same class) and int-snapping
(whole-number floats) both leave the magnitude intact. -/
theorem unitInit_unitv_toQ (L t : UnitType) (w : PyNum) (hL : L.base_units_per_self_unit ≠ 0) :
    ∃ m, unitInit L (.unitv t w) = .ok m ∧
      m.toQ = w.toQ * (t.base_units_per_self_unit / L.base_units_per_self_unit) := by
  rw [unitInit]
  by_cases h : t = L
  · subst h
    rw [if_pos rfl]
    exact ⟨w, rfl, by rw [div_self hL, mul_one]⟩
  · rw [if_neg h]
    refine ⟨_, rfl, ?_⟩
    by_cases hd : ((t.base_units_per_self_unit * w.toQ) / L.base_units_per_self_unit).den = 1
    · rw [if_pos hd]
      show ((((t.base_units_per_self_unit * w.toQ) / L.base_units_per_self_unit).num : ℚ)) = _
      rw [Rat.coe_int_num_of_den_eq_one hd]
      ring
    · rw [if_neg hd]
      show (t.base_units_per_self_unit * w.toQ) / L.base_units_per_self_unit = _
      ring

/-- Unfolding a successful `BaseUnit` arithmetic operation: the right operand
was converted into the left operand's class, the stored numbers were combined
by the raw Python operator, and the result carries the left operand's class. -/
theorem arith_ok_elim (op : ArithOp) (u : UnitVal) (rhs : PyVal) (r : UnitVal)
    (h : UnitVal.arith op u rhs = .ok r) :
    ∃ m, unitInit u.utype rhs = .ok m ∧
      rawArith op u.value m = .ok r.value ∧ r.utype = u.utype := by
  rw [UnitVal.arith] at h
  split at h
  · cases h
  · next m hm =>
    split at h
    · cases h
    · next raw hraw =>
      split at h
      · next v hv =>
        cases h
        rw [unitInit] at hv
        cases hv
        exact ⟨m, hm, hraw, rfl⟩
      · cases h

/-- Python `+` on numbers adds the magnitudes. -/
theorem PyNum.toQ_add (a b : PyNum) : (a.add b).toQ = a.toQ + b.toQ := by
  cases a <;> cases b <;> simp [PyNum.add, PyNum.toQ]

/-- Python `-` on numbers subtracts the magnitudes. -/
theorem PyNum.toQ_sub (a b : PyNum) : (a.sub b).toQ = a.toQ - b.toQ := by
  cases a <;> cases b <;> simp [PyNum.sub, PyNum.toQ]

/-- Python `*` on numbers multiplies the magnitudes. -/
theorem PyNum.toQ_mul (a b : PyNum) : (a.mul b).toQ = a.toQ * b.toQ := by
  cases a <;> cases b <;> simp [PyNum.mul, PyNum.toQ]

/-- A successful Python `/` divides the magnitudes. -/
theorem PyNum.toQ_div (a b r : PyNum) (h : a.div b = .ok r) :
    r.toQ = a.toQ / b.toQ := by
  rw [PyNum.div] at h
  split at h
  · cases h
  · cases h
    rfl

/-- A successful `BaseUnit` arithmetic operation always yields a value of the
left operand's class. -/
theorem arith_ok_utype (op : ArithOp) (u : UnitVal) (rhs : PyVal) (r : UnitVal)
    (h : UnitVal.arith op u rhs = .ok r) : r.utype = u.utype := by
  obtain ⟨m, -, -, hty⟩ := arith_ok_elim op u rhs r h
  exact hty

/-- On a list whose positions are pairwise descending, `find?` of
`position ≤ x` returns an entry with maximal position among those `≤ x`. -/
theorem find_desc_le_max {α : Type} (x : ℚ) :
    ∀ (l : List (ℚ × α)) (e : ℚ × α),
      l.Pairwise (fun a b => b.1 ≤ a.1) →
      l.find? (fun p => decide (p.1 ≤ x)) = some e →
      e.1 ≤ x ∧ ∀ p ∈ l, p.1 ≤ x → p.1 ≤ e.1
  | [], e, _, h => by simp at h
  | a :: t, e, hp, h => by
    by_cases ha : a.1 ≤ x
    · rw [List.find?_cons_of_pos _ (by simpa using ha)] at h
      cases h
      refine ⟨ha, ?_⟩
      intro p hp' _
      rcases List.mem_cons.mp hp' with rfl | hmem
      · exact le_refl _
      · exact (List.pairwise_cons.mp hp).1 p hmem
    · rw [List.find?_cons_of_neg _ (by simpa using ha)] at h
      have ih := find_desc_le_max x t e (List.pairwise_cons.mp hp).2 h
      refine ⟨ih.1, ?_⟩
      intro p hp' hpx
      rcases List.mem_cons.mp hp' with rfl | hmem
      · exact absurd hpx ha
      · exact ih.2 p hmem hpx

/-- The reversed sorted clef index has pairwise descending positions. -/
theorem clefs_reverse_desc (s : Staff) :
    s.clefs.reverse.Pairwise (fun a b => b.1 ≤ a.1) := by
  rw [List.pairwise_reverse]
  exact List.sorted_insertionSort posLE s.clefEntries

/-- The reversed sorted key-signature index has pairwise descending
positions. -/
theorem key_signatures_reverse_desc (s : Staff) :
    s.key_signatures.reverse.Pairwise (fun a b => b.1 ≤ a.1) := by
  rw [List.pairwise_reverse]
  exact List.sorted_insertionSort posLE s.keySigEntries

/-- Characterisation of `Staff.active_clef_at`: a returned clef is registered
at a maximal position `≤ x`, and `none` comes back exactly when every
registered clef lies strictly past `x`. -/
theorem active_clef_at_spec (s : Staff) (x : ℚ) :
    (∀ c, s.active_clef_at x = some c →
      ∃ p, (p, c) ∈ s.clefEntries ∧ p ≤ x ∧
        ∀ q c', (q, c') ∈ s.clefEntries → q ≤ x → q ≤ p) ∧
    (s.active_clef_at x = none ↔ ∀ q c', (q, c') ∈ s.clefEntries → x < q) := by
  constructor
  · intro c hc
    rcases Option.map_eq_some'.mp hc with ⟨e, he, rfl⟩
    have hmax := find_desc_le_max x _ e (clefs_reverse_desc s) he
    have hmem : e ∈ s.clefEntries := by
      have := List.mem_of_find?_eq_some he
      rw [List.mem_reverse, Staff.clefs, List.mem_insertionSort] at this
      exact this
    refine ⟨e.1, hmem, hmax.1, ?_⟩
    intro q c' hq hqx
    exact hmax.2 (q, c') (by
      rw [List.mem_reverse, Staff.clefs, List.mem_insertionSort]; exact hq) hqx
  · rw [Staff.active_clef_at, Option.map_eq_none', List.find?_eq_none]
    constructor
    · intro h q c' hq
      have hmem : (q, c') ∈ s.clefs.reverse := by
        rw [List.mem_reverse, Staff.clefs, List.mem_insertionSort]; exact hq
      have := h _ hmem
      simpa using lt_of_not_le (by simpa using this)
    · intro h e he
      rw [List.mem_reverse, Staff.clefs, List.mem_insertionSort] at he
      have := h e.1 e.2 he
      simp [not_le.mpr this]

/-- The key-signature analogue of `active_clef_at_spec`, membership part. -/
theorem active_key_signature_at_mem (s : Staff) (x : ℚ) (k : KeySignature)
    (hk : s.active_key_signature_at x = some k) :
    ∃ p, (p, k) ∈ s.keySigEntries := by
  rcases Option.map_eq_some'.mp hk with ⟨e, he, rfl⟩
  refine ⟨e.1, ?_⟩
  have := List.mem_of_find?_eq_some he
  rw [List.mem_reverse, Staff.key_signatures, List.mem_insertionSort] at this
  exact this

/-- Membership for the exact time-signature lookup. -/
theorem time_signature_exactly_at_mem (s : Staff) (x : ℚ) (t : TimeSignature)
    (ht : s.time_signature_exactly_at x = some t) :
    ∃ p, (p, t) ∈ s.timeSigEntries := by
  rcases Option.map_eq_some'.mp ht with ⟨e, he, rfl⟩
  refine ⟨e.1, ?_⟩
  have := List.mem_of_find?_eq_some he
  rw [Staff.time_signatures, List.mem_insertionSort] at this
  exact this

/-- Membership for `active_clef_at` alone. -/
theorem active_clef_at_mem (s : Staff) (x : ℚ) (c : Clef)
    (hc : s.active_clef_at x = some c) :
    ∃ p, (p, c) ∈ s.clefEntries := by
  rcases (active_clef_at_spec s x).1 c hc with ⟨p, hp, -, -⟩
  exact ⟨p, hp⟩

/-- The closest-tracking fold yields `none` exactly when it started at `none`
and nothing in the list lies strictly past `start_x`. -/
theorem foldl_closestStep_eq_none (s : ℚ) :
    ∀ (l : List StaffObj) (acc : Option ℚ),
      l.foldl (closestStep s) acc = none ↔ (acc = none ∧ ∀ it ∈ l, ¬ s < it.x)
  | [], acc => by simp
  | it :: t, acc => by
    rw [List.foldl_cons, foldl_closestStep_eq_none s t]
    cases acc with
    | none =>
      by_cases h : s < it.x
      · simp [closestStep, h, List.forall_mem_cons]
      · simp [closestStep, h, List.forall_mem_cons]
        exact fun _ => le_of_not_lt h
    | some c =>
      by_cases h : s < it.x ∧ it.x < c <;> simp [closestStep, h]

/-- A value produced by the closest-tracking fold is either the accumulator it
started from or the x of some listed object strictly past `start_x`. -/
theorem foldl_closestStep_eq_some_mem (s : ℚ) :
    ∀ (l : List StaffObj) (acc : Option ℚ) (c : ℚ),
      l.foldl (closestStep s) acc = some c →
      acc = some c ∨ ∃ it ∈ l, s < it.x ∧ it.x = c
  | [], acc, c => by simp
  | it :: t, acc, c => by
    intro h
    rw [List.foldl_cons] at h
    rcases foldl_closestStep_eq_some_mem s t _ c h with hstep | ⟨it', hit', hlt, rfl⟩
    · cases acc with
      | none =>
        by_cases hx : s < it.x
        · simp only [closestStep, if_pos hx] at hstep
          cases hstep
          exact Or.inr ⟨it, by simp, hx, rfl⟩
        · simp [closestStep, hx] at hstep
      | some a =>
        by_cases hx : s < it.x ∧ it.x < a
        · simp only [closestStep, if_pos hx] at hstep
          cases hstep
          exact Or.inr ⟨it, by simp, hx.1, rfl⟩
        · simp only [closestStep, if_neg hx] at hstep
          exact Or.inl hstep
    · exact Or.inr ⟨it', by simp [hit'], hlt, rfl⟩

/-- A value produced by the closest-tracking fold is a lower bound of the
starting accumulator and of every listed x strictly past `start_x`. -/
theorem foldl_closestStep_le (s : ℚ) :
    ∀ (l : List StaffObj) (acc : Option ℚ) (c : ℚ),
      l.foldl (closestStep s) acc = some c →
      (∀ a, acc = some a → c ≤ a) ∧ (∀ it ∈ l, s < it.x → c ≤ it.x)
  | [], acc, c => by
    intro h
    simp only [List.foldl_nil] at h
    subst h
    exact ⟨fun a ha => le_of_eq (Option.some_injective ℚ ha), by simp⟩
  | it :: t, acc, c => by
    intro h
    rw [List.foldl_cons] at h
    have ih := foldl_closestStep_le s t _ c h
    constructor
    · intro a ha
      subst ha
      by_cases hx : s < it.x ∧ it.x < a
      · have := ih.1 it.x (by simp [closestStep, hx])
        exact le_of_lt (lt_of_le_of_lt this hx.2)
      · exact ih.1 a (by simp [closestStep, hx])
    · intro it' hit' hlt
      rcases List.mem_cons.mp hit' with rfl | hmem
      · cases acc with
        | none => exact ih.1 it'.x (by simp [closestStep, hlt])
        | some a =>
          by_cases hx : s < it'.x ∧ it'.x < a
          · exact ih.1 it'.x (by simp [closestStep, hx])
          · have ha2 : a ≤ it'.x := by
              rcases not_and_or.mp hx with h1 | h2
              · exact absurd hlt h1
              · exact le_of_not_lt h2
            exact le_trans (ih.1 a (by simp [closestStep, hx])) ha2
      · exact ih.2 it' hmem hlt

/-- The running minimum over the `staff` edges of a layout list: it is a lower
bound of the start and of every edge, and is either the start or attained. -/
theorem foldl_min_staff_spec :
    ∀ (l : List (Staff × StaffFringeLayout)) (a : ℚ),
      l.foldl (fun m pr => min m pr.2.staff) a ≤ a ∧
      (∀ pr ∈ l, l.foldl (fun m pr => min m pr.2.staff) a ≤ pr.2.staff) ∧
      (l.foldl (fun m pr => min m pr.2.staff) a = a ∨
        ∃ pr ∈ l, l.foldl (fun m pr => min m pr.2.staff) a = pr.2.staff)
  | [], a => by simp
  | pr0 :: t, a => by
    obtain ⟨ih1, ih2, ih3⟩ := foldl_min_staff_spec t (min a pr0.2.staff)
    rw [List.foldl_cons]
    refine ⟨le_trans ih1 (min_le_left _ _), ?_, ?_⟩
    · intro pr hpr
      rcases List.mem_cons.mp hpr with rfl | hmem
      · exact le_trans ih1 (min_le_right _ _)
      · exact ih2 pr hmem
    · rcases ih3 with heq | ⟨pr, hpr, heq⟩
      · rcases min_choice a pr0.2.staff with hmin | hmin
        · exact Or.inl (heq.trans hmin)
        · exact Or.inr ⟨pr0, by simp, heq.trans hmin⟩
      · exact Or.inr ⟨pr, by simp [hpr], heq⟩

/-- `collect_isolated` pairs each member staff, in order, with its isolated
layout; success means every member's isolated computation succeeded. -/
theorem collect_isolated_spec (location : Option NewLine) :
    ∀ (staves : List Staff) (res : List (Staff × StaffFringeLayout)),
      StaffGroup.collect_isolated location staves = .ok res →
      res.map Prod.fst = staves ∧
      ∀ pr ∈ res,
        StaffGroup.fringe_layout_for_isolated_staff pr.1 location = .ok pr.2
  | [], res => by
    intro h
    simp only [StaffGroup.collect_isolated] at h
    cases h
    simp
  | st :: rest, res => by
    intro h
    simp only [StaffGroup.collect_isolated, bind, Except.bind] at h
    cases hst : StaffGroup.fringe_layout_for_isolated_staff st location with
    | error e => rw [hst] at h; cases h
    | ok layout =>
      rw [hst] at h
      cases hrest : StaffGroup.collect_isolated location rest with
      | error e => rw [hrest] at h; cases h
      | ok tail =>
        rw [hrest] at h
        cases h
        obtain ⟨ih1, ih2⟩ := collect_isolated_spec location rest tail hrest
        refine ⟨by simp [ih1], ?_⟩
        intro pr hpr
        rcases List.mem_cons.mp hpr with rfl | hmem
        · exact hst
        · exact ih2 pr hmem

/-- The output of `align_layout`, described uniformly: the `staff` edge lands
on the basis, `clef`/`key_signature` shift by the same delta, and
`time_signature` is untouched. -/
theorem align_layout_spec (l : StaffFringeLayout) (basis : ℚ) :
    (StaffGroup.align_layout l basis).pos_x_in_staff = l.pos_x_in_staff ∧
    (StaffGroup.align_layout l basis).staff = basis ∧
    (StaffGroup.align_layout l basis).clef = l.clef.map (· + (basis - l.staff)) ∧
    (StaffGroup.align_layout l basis).key_signature =
      l.key_signature.map (· + (basis - l.staff)) ∧
    (StaffGroup.align_layout l basis).time_signature = l.time_signature := by
  rw [StaffGroup.align_layout]
  by_cases h : l.staff = basis
  · subst h
    rw [if_pos rfl]
    refine ⟨rfl, rfl, ?_, ?_, rfl⟩
    · rw [sub_self]
      cases hc : l.clef <;> simp [hc]
    · rw [sub_self]
      cases hc : l.key_signature <;> simp [hc]
  · simp only [if_neg h]
    refine ⟨trivial, by ring, trivial, trivial, trivial⟩

/-- A successful isolated group layout records the resolved staff position
and numeric (`some`) edges for all three layers, active or not. -/
theorem isolated_at_ok_shape (st : Staff) (px : ℚ) (l : StaffFringeLayout)
    (h : StaffGroup.fringe_layout_for_isolated_staff_at st px = .ok l) :
    l.pos_x_in_staff = px ∧
    l.clef.isSome ∧ l.key_signature.isSome ∧ l.time_signature.isSome := by
  rw [StaffGroup.fringe_layout_for_isolated_staff_at] at h
  rcases hts : st.time_signature_exactly_at px with _ | ts <;>
    rcases hcl : st.active_clef_at px with _ | c <;>
      rcases hks : st.active_key_signature_at px with _ | k <;>
        simp only [hts, hcl, hks] at h <;>
          cases h <;> simp

/-- A successful isolated group layout always has a strictly negative `staff`
edge, provided the staff's unit is a positive length and the registered
element widths are nonnegative. -/
theorem isolated_at_staff_neg (st : Staff) (px : ℚ) (l : StaffFringeLayout)
    (h : StaffGroup.fringe_layout_for_isolated_staff_at st px = .ok l)
    (hu : 0 < st.line_spacing)
    (hc : ∀ p c, (p, c) ∈ st.clefEntries → 0 ≤ c.bounding_rect.width)
    (hk : ∀ p k, (p, k) ∈ st.keySigEntries → 0 ≤ k.visual_width)
    (ht : ∀ p t, (p, t) ∈ st.timeSigEntries → 0 ≤ t.visual_width) :
    l.staff < 0 := by
  have hwc : ∀ c, st.active_clef_at px = some c → 0 ≤ c.bounding_rect.width := by
    intro c hcl
    obtain ⟨p, hp⟩ := active_clef_at_mem st px c hcl
    exact hc p c hp
  have hwk : ∀ k, st.active_key_signature_at px = some k → 0 ≤ k.visual_width := by
    intro k hks
    obtain ⟨p, hp⟩ := active_key_signature_at_mem st px k hks
    exact hk p k hp
  have hwt : ∀ t, st.time_signature_exactly_at px = some t → 0 ≤ t.visual_width := by
    intro t hts
    obtain ⟨p, hp⟩ := time_signature_exactly_at_mem st px t hts
    exact ht p t hp
  rw [StaffGroup.fringe_layout_for_isolated_staff_at] at h
  rcases hts : st.time_signature_exactly_at px with _ | ts <;>
    rcases hcl : st.active_clef_at px with _ | c <;>
      rcases hks : st.active_key_signature_at px with _ | k <;>
        simp only [hts, hcl, hks] at h <;>
          cases h <;>
            simp only [Staff.unit, StaffGroup.RIGHT_PADDING,
              StaffGroup.LEFT_PADDING, StaffGroup.TIME_SIG_LEFT_PADDING,
              StaffGroup.KEY_SIG_LEFT_PADDING]
  · have := hwc c hcl
    nlinarith
  · have h1 := hwc c hcl
    have h2 := hwk k hks
    nlinarith
  · have := hwt ts hts
    nlinarith
  · have h1 := hwt ts hts
    have h2 := hwk k hks
    nlinarith
  · have h1 := hwt ts hts
    have h2 := hwc c hcl
    nlinarith
  · have h1 := hwt ts hts
    have h2 := hwc c hcl
    have h3 := hwk k hks
    nlinarith

/-!
### Claims
-/

/-- **C2.** For every staff and every x position, `active_clef_at x` returns
a clef registered at the greatest position `≤ x` among all clefs registered
in the staff (a clef at exactly position `x` counts as active), and returns
none when no registered clef has position `≤ x`. -/
theorem C2_active_clef_at_greatest (s : Staff) (x : ℚ) :
    (∀ c, s.active_clef_at x = some c →
      ∃ p, (p, c) ∈ s.clefEntries ∧ p ≤ x ∧
        ∀ q c', (q, c') ∈ s.clefEntries → q ≤ x → q ≤ p) ∧
    (s.active_clef_at x = none ↔ ∀ q c', (q, c') ∈ s.clefEntries → x < q) :=
  active_clef_at_spec s x

/-- **C8.** For every staff and every x position, `middle_c_at x` returns the
middle-c staff position of the clef returned by `active_clef_at x` when one
exists, and raises `NoClefError` exactly when `active_clef_at x` returns
none. -/
theorem C8_middle_c_at_delegates (s : Staff) (x : ℚ) :
    (∀ c, s.active_clef_at x = some c →
      s.middle_c_at x = .ok c.middle_c_staff_position) ∧
    (s.middle_c_at x = .error .noClefError ↔ s.active_clef_at x = none) := by
  constructor
  · intro c hc
    rw [Staff.middle_c_at, hc]
  · rw [Staff.middle_c_at]
    cases hc : s.active_clef_at x <;> simp

/-- **C5, counterexample.** The claim says construction from a value that is
neither a number nor a unit value fails with `TypeConversionError`; the code
raises plain `TypeError` (no `TypeConversionError` exists anywhere in the
source). -/
theorem C5_counterexample :
    unitInit ⟨"Mm", 1⟩ .other = .error .typeError ∧
    unitInit ⟨"Mm", 1⟩ .other ≠ .error .typeConversionError := by
  constructor
  · rfl
  · intro h
    rw [unitInit] at h
    cases h

/-- **C5, amended.** Constructing a unit value from an int or float stores
that number directly with no conversion; constructing it from a value of
another unit type converts via the ratio formula; and constructing it from
any value that is neither a number nor a unit value fails with a
`TypeError`. -/
theorem C5_amended_construction (L t : UnitType) (w n : PyNum)
    (hL : 0 < L.base_units_per_self_unit) (_ht : t ≠ L) :
    unitInit L (.num n) = .ok n ∧
    (∃ m, unitInit L (.unitv t w) = .ok m ∧
      m.toQ = w.toQ * (t.base_units_per_self_unit / L.base_units_per_self_unit)) ∧
    unitInit L .other = .error .typeError :=
  ⟨rfl, unitInit_unitv_toQ L t w (ne_of_gt hL), rfl⟩

/-- **C5, witness.** -/
theorem C5_witness :
    unitInit ⟨"Mm", 1⟩ (.num (.f (3/2))) = .ok (.f (3/2)) ∧
    (∃ m, unitInit ⟨"Mm", 1⟩ (.unitv ⟨"Inch", 254/10⟩ (.i 2)) = .ok m ∧
      m.toQ = (PyNum.i 2).toQ *
        ((⟨"Inch", 254/10⟩ : UnitType).base_units_per_self_unit / (⟨"Mm", 1⟩ : UnitType).base_units_per_self_unit)) ∧
    unitInit ⟨"Mm", 1⟩ .other = .error .typeError :=
  C5_amended_construction ⟨"Mm", 1⟩ ⟨"Inch", 254/10⟩ (.i 2) (.f (3/2))
    (by norm_num) (by decide)

/-- **C10.** Constructing from a different unit subclass stores the converted
value as a Python int whenever the ratio conversion produces a whole-number
float, and as a float otherwise; constructing from the same unit type copies
the value with neither conversion nor int-snapping. -/
theorem C10_cross_unit_int_snapping (L t : UnitType) (w : PyNum)
    (ht : t ≠ L) :
    (((t.base_units_per_self_unit * w.toQ) / L.base_units_per_self_unit).den = 1 →
      unitInit L (.unitv t w) = .ok (.i ((t.base_units_per_self_unit * w.toQ) / L.base_units_per_self_unit).num)) ∧
    (((t.base_units_per_self_unit * w.toQ) / L.base_units_per_self_unit).den ≠ 1 →
      unitInit L (.unitv t w) = .ok (.f ((t.base_units_per_self_unit * w.toQ) / L.base_units_per_self_unit))) ∧
    unitInit L (.unitv L w) = .ok w := by
  refine ⟨?_, ?_, ?_⟩
  · intro hd
    simp only [unitInit, if_neg ht, if_pos hd]
  · intro hd
    simp only [unitInit, if_neg ht, if_neg hd]
  · simp [unitInit]

/-- **C10, witness:** converting a whole-valued float across unit types of
equal ratio snaps it to an int (magnitude preserved, numeric type changed),
while a same-type copy keeps the float. -/
theorem C10_witness :
    unitInit ⟨"B", 1⟩ (.unitv ⟨"A", 1⟩ (.f 2)) = .ok (.i 2) ∧
    unitInit ⟨"B", 1⟩ (.unitv ⟨"B", 1⟩ (.f 2)) = .ok (.f 2) := by
  have h := C10_cross_unit_int_snapping ⟨"B", 1⟩ ⟨"A", 1⟩ (.f 2) (by decide)
  have hfrac : ((⟨"A", 1⟩ : UnitType).base_units_per_self_unit * (PyNum.f 2).toQ) /
      (⟨"B", 1⟩ : UnitType).base_units_per_self_unit = (2 : ℚ) := by
    norm_num [PyNum.toQ]
  refine ⟨?_, h.2.2⟩
  have h1 := h.1 (by rw [hfrac]; simp)
  rw [h1, hfrac]
  simp

/-- **C3, counterexample.** In `StaffGroup._fringe_layout_for_isolated_staff`
a layer with no active element still gets a numeric edge recorded: for a
staff with only a clef, the `key_signature` and `time_signature` edges are
the numeric right-padding offset, not an absence. -/
theorem C3_counterexample :
    exStaffA.active_key_signature_at 0 = none ∧
    exStaffA.time_signature_exactly_at 0 = none ∧
    StaffGroup.fringe_layout_for_isolated_staff exStaffA none =
      .ok ⟨0, -(7/2), some (-3), some (-1), some (-1)⟩ := by
  refine ⟨?_, ?_, ?_⟩
  · simp [Staff.active_key_signature_at, Staff.key_signatures, exStaffA]
  · simp [Staff.time_signature_exactly_at, Staff.time_signatures, exStaffA]
  · simp [StaffGroup.fringe_layout_for_isolated_staff,
      StaffGroup.fringe_layout_for_isolated_staff_at, Staff.active_clef_at,
      Staff.active_key_signature_at, Staff.time_signature_exactly_at,
      Staff.clefs, Staff.key_signatures, Staff.time_signatures, Staff.unit,
      StaffGroup.RIGHT_PADDING, StaffGroup.LEFT_PADDING,
      StaffGroup.KEY_SIG_LEFT_PADDING, StaffGroup.TIME_SIG_LEFT_PADDING,
      exStaffA]
    norm_num

/-- **C3, amended.** In `Staff`'s fringe computation a layer with no active
element has no edge recorded (none) — and conversely; in `StaffGroup`'s
isolated computation every successfully computed layout records a numeric
edge for all three layers, active or not. -/
theorem C3_amended_absent_layers (s : Staff) (pos_x : ℚ) :
    ((s.fringe_layout_at_staff_pos_x pos_x).clef = none ↔
      s.active_clef_at pos_x = none) ∧
    ((s.fringe_layout_at_staff_pos_x pos_x).key_signature = none ↔
      s.active_key_signature_at pos_x = none) ∧
    ((s.fringe_layout_at_staff_pos_x pos_x).time_signature = none ↔
      s.time_signature_exactly_at pos_x = none) ∧
    (∀ st px l, StaffGroup.fringe_layout_for_isolated_staff_at st px = .ok l →
      l.clef.isSome ∧ l.key_signature.isSome ∧ l.time_signature.isSome) := by
  refine ⟨?_, ?_, ?_, ?_⟩
  · cases hcl : s.active_clef_at pos_x <;>
      simp [Staff.fringe_layout_at_staff_pos_x, hcl]
  · cases hks : s.active_key_signature_at pos_x <;>
      simp [Staff.fringe_layout_at_staff_pos_x, hks]
  · cases hts : s.time_signature_exactly_at pos_x <;>
      simp [Staff.fringe_layout_at_staff_pos_x, hts]
  · intro st px l h
    exact (isolated_at_ok_shape st px l h).2

/-- **C7.** For a staff containing exactly one clef at staff position 0 and
no key or time signatures, `fringe_layout_at none` yields a layout with
`staff` edge `-(clef bounding width + 0.5 staff units)`, `clef` edge
`-(clef bounding width)`, and absent `key_signature` and `time_signature`
edges. -/
theorem C7_single_clef_fringe (ls len off : ℚ) (c : Clef)
    (objs : List StaffObj) :
    Staff.fringe_layout_at ⟨ls, len, off, [(0, c)], [], [], objs⟩ none =
      ⟨0, -(c.bounding_rect.width + (1/2) * ls),
        some (-c.bounding_rect.width), none, none⟩ := by
  simp only [Staff.fringe_layout_at, Staff.fringe_layout_at_staff_pos_x,
    Staff.active_clef_at, Staff.active_key_signature_at,
    Staff.time_signature_exactly_at, Staff.clefs, Staff.key_signatures,
    Staff.time_signatures, List.insertionSort, List.orderedInsert,
    List.reverse_cons, List.reverse_nil, List.nil_append, List.find?,
    Staff.unit, Staff.LEFT_PADDING]
  norm_num
  ring

/-- **C9.** For every staff descendant `o`: if no other instance of `o`'s
exact type lies at a strictly greater x position, `distance_to_next_of_type`
gives `breakable_length` minus `o`'s x position; otherwise it gives the gap
to the nearest other instance with a strictly greater x position.  (Python
object identity is modelled by `oid`; `hid` says `o`'s identity is
unambiguous among the staff's descendants.) -/
theorem C9_distance_to_next_of_type (s : Staff) (o : StaffObj)
    (hid : ∀ p ∈ s.objects, p.oid = o.oid → p = o) :
    ((∀ it ∈ s.objects, it.cls = o.cls → it ≠ o → it.x ≤ o.x) →
      s.distance_to_next_of_type o = s.breakable_length - o.x) ∧
    (∀ m ∈ s.objects, m.cls = o.cls → m ≠ o → o.x < m.x →
      (∀ it ∈ s.objects, it.cls = o.cls → it ≠ o → o.x < it.x → m.x ≤ it.x) →
      s.distance_to_next_of_type o = m.x - o.x) := by
  have hmem : ∀ it : StaffObj,
      it ∈ s.objects.filter
        (fun item => decide (item.cls = o.cls) && decide (item.oid ≠ o.oid)) ↔
      (it ∈ s.objects ∧ it.cls = o.cls ∧ it ≠ o) := by
    intro it
    rw [List.mem_filter]
    constructor
    · rintro ⟨h1, h2⟩
      simp only [Bool.and_eq_true, decide_eq_true_eq] at h2
      exact ⟨h1, h2.1, fun he => h2.2 (by rw [he])⟩
    · rintro ⟨h1, h2, h3⟩
      refine ⟨h1, ?_⟩
      simp only [Bool.and_eq_true, decide_eq_true_eq]
      exact ⟨h2, fun he => h3 (hid it h1 he)⟩
  constructor
  · intro hlast
    have hnone : (s.objects.filter
        (fun item =>
          decide (item.cls = o.cls) && decide (item.oid ≠ o.oid))).foldl
          (closestStep o.x) none = none := by
      rw [foldl_closestStep_eq_none]
      refine ⟨rfl, ?_⟩
      intro it hit
      obtain ⟨h1, h2, h3⟩ := (hmem it).mp hit
      exact not_lt.mpr (hlast it h1 h2 h3)
    simp only [Staff.distance_to_next_of_type]
    rw [hnone]
  · intro m hm hmc hmo hmx hmin
    have hmF := (hmem m).mpr ⟨hm, hmc, hmo⟩
    cases hfold : (s.objects.filter
        (fun item =>
          decide (item.cls = o.cls) && decide (item.oid ≠ o.oid))).foldl
          (closestStep o.x) none with
    | none =>
      exfalso
      obtain ⟨-, hall⟩ := (foldl_closestStep_eq_none o.x _ none).mp hfold
      exact hall m hmF hmx
    | some c =>
      rcases foldl_closestStep_eq_some_mem o.x _ none c hfold with
        hn | ⟨it, hitF, hitx, rfl⟩
      · cases hn
      · obtain ⟨-, hub⟩ := foldl_closestStep_le o.x _ none it.x hfold
        obtain ⟨hitmem, hitc, hito⟩ := (hmem it).mp hitF
        have h1 : m.x ≤ it.x := hmin it hitmem hitc hito hitx
        have h2 : it.x ≤ m.x := hub m hmF hmx
        have heq : it.x = m.x := le_antisymm h2 h1
        simp only [Staff.distance_to_next_of_type]
        rw [hfold, heq]

/-- **C9, witness.** -/
theorem C9_witness :
    exStaffObjs.distance_to_next_of_type ⟨1, 0, 10⟩ =
      (⟨2, 0, 30⟩ : StaffObj).x - (⟨1, 0, 10⟩ : StaffObj).x :=
  (C9_distance_to_next_of_type exStaffObjs ⟨1, 0, 10⟩ (by decide)).2
    ⟨2, 0, 30⟩ (by decide) (by decide) (by decide) (by decide) (by decide)

/-- **C6.** Every comparison and arithmetic operator of the unit type first
converts the right operand into the left operand's unit via
`value' = value * (source_ratio / target_ratio)` (a plain number is stored
directly as a value of the left unit), and every arithmetic result is a
value of the left operand's unit type. -/
theorem C6_operator_conversion (L t : UnitType) (a w n : PyNum)
    (hL : 0 < L.base_units_per_self_unit) :
    unitInit L (.num n) = .ok n ∧
    (∃ m, unitInit L (.unitv t w) = .ok m ∧
      m.toQ = w.toQ * (t.base_units_per_self_unit / L.base_units_per_self_unit)) ∧
    (∀ op : CmpOp,
      UnitVal.cmp op ⟨L, a⟩ (.unitv t w) =
        .ok (cmpQ op a.toQ (w.toQ * (t.base_units_per_self_unit / L.base_units_per_self_unit)))) ∧
    (∀ op : CmpOp,
      UnitVal.cmp op ⟨L, a⟩ (.num n) = .ok (cmpQ op a.toQ n.toQ)) ∧
    (∀ (op : ArithOp) (r : UnitVal),
      UnitVal.arith op ⟨L, a⟩ (.unitv t w) = .ok r →
      r.utype = L ∧ ∃ m, m.toQ = w.toQ * (t.base_units_per_self_unit / L.base_units_per_self_unit) ∧
        rawArith op a m = .ok r.value) ∧
    (∀ (op : ArithOp) (r : UnitVal),
      UnitVal.arith op ⟨L, a⟩ (.num n) = .ok r →
      r.utype = L ∧ rawArith op a n = .ok r.value) ∧
    (∀ r, UnitVal.arith .add ⟨L, a⟩ (.unitv t w) = .ok r →
      r.value.toQ = a.toQ + w.toQ * (t.base_units_per_self_unit / L.base_units_per_self_unit)) ∧
    (∀ r, UnitVal.arith .sub ⟨L, a⟩ (.unitv t w) = .ok r →
      r.value.toQ = a.toQ - w.toQ * (t.base_units_per_self_unit / L.base_units_per_self_unit)) ∧
    (∀ r, UnitVal.arith .mul ⟨L, a⟩ (.unitv t w) = .ok r →
      r.value.toQ = a.toQ * (w.toQ * (t.base_units_per_self_unit / L.base_units_per_self_unit))) ∧
    (∀ r, UnitVal.arith .div ⟨L, a⟩ (.unitv t w) = .ok r →
      r.value.toQ = a.toQ / (w.toQ * (t.base_units_per_self_unit / L.base_units_per_self_unit))) := by
  obtain ⟨m0, hm0, hm0q⟩ := unitInit_unitv_toQ L t w (ne_of_gt hL)
  refine ⟨rfl, ⟨m0, hm0, hm0q⟩, ?_, ?_, ?_, ?_, ?_, ?_, ?_, ?_⟩
  · intro op
    rw [UnitVal.cmp]
    show (unitInit L (.unitv t w)).map _ = _
    rw [hm0]
    cases op <;> simp [cmpQ, Except.map, hm0q]
  · intro op
    rw [UnitVal.cmp]
    cases op <;> simp [cmpQ, Except.map, unitInit]
  · intro op r h
    obtain ⟨m, hm, hraw, hty⟩ := arith_ok_elim op ⟨L, a⟩ (.unitv t w) r h
    have hmm : m0 = m := Except.ok.inj (hm0.symm.trans hm)
    subst hmm
    exact ⟨hty, m0, hm0q, hraw⟩
  · intro op r h
    obtain ⟨m, hm, hraw, hty⟩ := arith_ok_elim op ⟨L, a⟩ (.num n) r h
    have hnm : n = m :=
      Except.ok.inj ((show unitInit L (.num n) = .ok n from rfl).symm.trans hm)
    subst hnm
    exact ⟨hty, hraw⟩
  · intro r h
    obtain ⟨m, hm, hraw, -⟩ := arith_ok_elim .add ⟨L, a⟩ (.unitv t w) r h
    have hmm : m0 = m := Except.ok.inj (hm0.symm.trans hm)
    subst hmm
    simp only [rawArith] at hraw
    have hv : r.value = a.add m0 := (Except.ok.inj hraw).symm
    rw [hv, PyNum.toQ_add, hm0q]
  · intro r h
    obtain ⟨m, hm, hraw, -⟩ := arith_ok_elim .sub ⟨L, a⟩ (.unitv t w) r h
    have hmm : m0 = m := Except.ok.inj (hm0.symm.trans hm)
    subst hmm
    simp only [rawArith] at hraw
    have hv : r.value = a.sub m0 := (Except.ok.inj hraw).symm
    rw [hv, PyNum.toQ_sub, hm0q]
  · intro r h
    obtain ⟨m, hm, hraw, -⟩ := arith_ok_elim .mul ⟨L, a⟩ (.unitv t w) r h
    have hmm : m0 = m := Except.ok.inj (hm0.symm.trans hm)
    subst hmm
    simp only [rawArith] at hraw
    have hv : r.value = a.mul m0 := (Except.ok.inj hraw).symm
    rw [hv, PyNum.toQ_mul, hm0q]
  · intro r h
    obtain ⟨m, hm, hraw, -⟩ := arith_ok_elim .div ⟨L, a⟩ (.unitv t w) r h
    have hmm : m0 = m := Except.ok.inj (hm0.symm.trans hm)
    subst hmm
    simp only [rawArith] at hraw
    rw [PyNum.toQ_div a m0 r.value hraw, hm0q]

/-- **C6, witness:** `Mm(1) < Inch(1)` converts the inch into millimetres
before comparing. -/
theorem C6_witness :
    UnitVal.cmp .lt ⟨⟨"Mm", 1⟩, .i 1⟩ (.unitv ⟨"Inch", 254/10⟩ (.i 1)) =
      .ok true := by
  have h := (C6_operator_conversion ⟨"Mm", 1⟩ ⟨"Inch", 254/10⟩ (.i 1) (.i 1)
      (.i 0) (by norm_num)).2.2.1 CmpOp.lt
  rw [h]
  norm_num [cmpQ, PyNum.toQ]

/-- **C4, counterexample.** `Staff.fringe_layout_at` does not clamp a
negative break position: on a line starting before the staff's flowable
offset the returned layout differs from the layout at staff position
zero. -/
theorem C4_counterexample :
    Staff.fringe_layout_at exStaffOffset (some ⟨0⟩) ≠
      Staff.fringe_layout_at exStaffOffset none := by
  have h1 : Staff.fringe_layout_at exStaffOffset (some ⟨0⟩) =
      ⟨-5, -(1/2), none, none, none⟩ := by
    simp [Staff.fringe_layout_at, Staff.fringe_layout_at_staff_pos_x,
      Staff.active_clef_at, Staff.active_key_signature_at,
      Staff.time_signature_exactly_at, Staff.clefs, Staff.key_signatures,
      Staff.time_signatures, Staff.unit, Staff.LEFT_PADDING, exStaffOffset]
  have h2 : Staff.fringe_layout_at exStaffOffset none =
      ⟨0, -(3/2), some (-1), none, none⟩ := by
    simp [Staff.fringe_layout_at, Staff.fringe_layout_at_staff_pos_x,
      Staff.active_clef_at, Staff.active_key_signature_at,
      Staff.time_signature_exactly_at, Staff.clefs, Staff.key_signatures,
      Staff.time_signatures, Staff.unit, Staff.LEFT_PADDING, exStaffOffset]
    norm_num
  rw [h1, h2]
  intro hcontra
  have := congrArg StaffFringeLayout.pos_x_in_staff hcontra
  norm_num at this

/-- **C4, amended.** Only the staff-group fringe lookup clamps a break
position before the staff's flowable offset to zero (so the group layouts at
such a line equal the layouts computed with no line); `Staff.fringe_layout_at`
instead uses the raw (negative) staff position. -/
theorem C4_amended_clamping (st : Staff) (loc : NewLine) (g : StaffGroup)
    (hneg : loc.flowable_x - st.pos_in_flowable < 0)
    (hgneg : ∀ stf ∈ g.staves, loc.flowable_x - stf.pos_in_flowable < 0) :
    StaffGroup.fringe_layout_for_isolated_staff st (some loc) =
      StaffGroup.fringe_layout_for_isolated_staff st none ∧
    g.fringe_layout_at (some loc) = g.fringe_layout_at none ∧
    Staff.fringe_layout_at st (some loc) =
      st.fringe_layout_at_staff_pos_x (loc.flowable_x - st.pos_in_flowable) := by
  have hiso : ∀ stf : Staff, loc.flowable_x - stf.pos_in_flowable < 0 →
      StaffGroup.fringe_layout_for_isolated_staff stf (some loc) =
        StaffGroup.fringe_layout_for_isolated_staff stf none := by
    intro stf hn
    simp only [StaffGroup.fringe_layout_for_isolated_staff, if_pos hn]
  have hcol : ∀ l : List Staff,
      (∀ stf ∈ l, loc.flowable_x - stf.pos_in_flowable < 0) →
      StaffGroup.collect_isolated (some loc) l =
        StaffGroup.collect_isolated none l := by
    intro l
    induction l with
    | nil => intro _; rfl
    | cons hd tl ih =>
      intro hl
      rw [StaffGroup.collect_isolated, StaffGroup.collect_isolated,
        hiso hd (hl hd (by simp)), ih fun stf hstf => hl stf (by simp [hstf])]
  refine ⟨hiso st hneg, ?_, rfl⟩
  rw [StaffGroup.fringe_layout_at, StaffGroup.fringe_layout_at,
    hcol g.staves hgneg]

/-- **C4, witness.** -/
theorem C4_witness :
    StaffGroup.fringe_layout_for_isolated_staff exStaffOffset (some ⟨0⟩) =
      StaffGroup.fringe_layout_for_isolated_staff exStaffOffset none ∧
    exGroupOffset.fringe_layout_at (some ⟨0⟩) =
      exGroupOffset.fringe_layout_at none ∧
    Staff.fringe_layout_at exStaffOffset (some ⟨0⟩) =
      exStaffOffset.fringe_layout_at_staff_pos_x
        ((⟨0⟩ : NewLine).flowable_x - exStaffOffset.pos_in_flowable) :=
  C4_amended_clamping exStaffOffset ⟨0⟩ exGroupOffset
    (by norm_num [exStaffOffset])
    (by
      intro stf hstf
      simp only [exGroupOffset, List.mem_singleton] at hstf
      subst hstf
      norm_num [exStaffOffset])

/-- **C1.** When `StaffGroup.fringe_layout_at` completes, every member
staff's cached layout has a `staff` edge equal to the minimum (most
negative) isolated `staff` edge across all members; each member's `clef` and
`key_signature` edges are shifted by the same per-staff delta as its `staff`
edge; and each member's `time_signature` edge equals its un-shifted isolated
value.  (Hypotheses: staves use positive units and registered elements have
nonnegative widths, as in the source.) -/
theorem C1_group_alignment (g : StaffGroup) (location : Option NewLine)
    (layouts : List (Staff × StaffFringeLayout))
    (hrun : g.fringe_layout_at location = .ok layouts)
    (hne : g.staves ≠ [])
    (hu : ∀ st ∈ g.staves, 0 < st.line_spacing)
    (hcw : ∀ st ∈ g.staves, ∀ p c, (p, c) ∈ st.clefEntries →
      0 ≤ c.bounding_rect.width)
    (hkw : ∀ st ∈ g.staves, ∀ p k, (p, k) ∈ st.keySigEntries →
      0 ≤ k.visual_width)
    (htw : ∀ st ∈ g.staves, ∀ p t, (p, t) ∈ st.timeSigEntries →
      0 ≤ t.visual_width) :
    ∃ basis : ℚ,
      (∃ st0 ∈ g.staves, ∃ l0,
        StaffGroup.fringe_layout_for_isolated_staff st0 location = .ok l0 ∧
        l0.staff = basis) ∧
      (∀ st ∈ g.staves, ∀ l,
        StaffGroup.fringe_layout_for_isolated_staff st location = .ok l →
        basis ≤ l.staff) ∧
      (∀ pr ∈ layouts, ∃ l,
        StaffGroup.fringe_layout_for_isolated_staff pr.1 location = .ok l ∧
        pr.2.staff = basis ∧
        pr.2.clef = l.clef.map (· + (basis - l.staff)) ∧
        pr.2.key_signature = l.key_signature.map (· + (basis - l.staff)) ∧
        pr.2.time_signature = l.time_signature) := by
  rw [StaffGroup.fringe_layout_at] at hrun
  split at hrun
  · cases hrun
  · next res hcol =>
    cases hrun
    obtain ⟨hfst, hiso⟩ := collect_isolated_spec location g.staves res hcol
    obtain ⟨hb0, hble, hbatt⟩ := foldl_min_staff_spec res 0
    have hstaffneg : ∀ pr ∈ res, pr.2.staff < 0 := by
      intro pr hpr
      have hstm : pr.1 ∈ g.staves := by
        rw [← hfst]
        exact List.mem_map_of_mem Prod.fst hpr
      have hok := hiso pr hpr
      simp only [StaffGroup.fringe_layout_for_isolated_staff.eq_def] at hok
      exact isolated_at_staff_neg pr.1 _ pr.2 hok (hu pr.1 hstm)
        (hcw pr.1 hstm) (hkw pr.1 hstm) (htw pr.1 hstm)
    have hresne : res ≠ [] := by
      intro hres0
      apply hne
      rw [← hfst, hres0]
      rfl
    have hbatt' : ∃ prm ∈ res,
        res.foldl (fun m pr => min m pr.2.staff) 0 = prm.2.staff := by
      rcases hbatt with h0 | hatt
      · exfalso
        rcases List.exists_mem_of_ne_nil res hresne with ⟨pr0, hpr0⟩
        have hle := hble pr0 hpr0
        have hneg := hstaffneg pr0 hpr0
        rw [h0] at hle
        exact absurd (lt_of_le_of_lt hle hneg) (lt_irrefl 0)
      · exact hatt
    refine ⟨res.foldl (fun m pr => min m pr.2.staff) 0, ?_, ?_, ?_⟩
    · rcases hbatt' with ⟨prm, hprm, heq⟩
      exact ⟨prm.1, by rw [← hfst]; exact List.mem_map_of_mem Prod.fst hprm,
        prm.2, hiso prm hprm, heq.symm⟩
    · intro st hst l hl
      rw [← hfst] at hst
      rcases List.mem_map.mp hst with ⟨pr, hpr, hpr1⟩
      have hok := hiso pr hpr
      rw [hpr1] at hok
      have hlp : l = pr.2 := Except.ok.inj (hl.symm.trans hok)
      rw [hlp]
      exact hble pr hpr
    · intro pr' hpr'
      rcases List.mem_map.mp hpr' with ⟨pr, hpr, rfl⟩
      obtain ⟨-, hs, hc, hk2, ht2⟩ :=
        align_layout_spec pr.2 (res.foldl (fun m pr2 => min m pr2.2.staff) 0)
      exact ⟨pr.2, hiso pr hpr, hs, hc, hk2, ht2⟩

/-- **C1, witness.** -/
theorem C1_witness :
    ∃ basis : ℚ,
      (∃ st0 ∈ exGroup.staves, ∃ l0,
        StaffGroup.fringe_layout_for_isolated_staff st0 none = .ok l0 ∧
        l0.staff = basis) ∧
      (∀ st ∈ exGroup.staves, ∀ l,
        StaffGroup.fringe_layout_for_isolated_staff st none = .ok l →
        basis ≤ l.staff) ∧
      (∀ pr ∈ exGroupLayouts, ∃ l,
        StaffGroup.fringe_layout_for_isolated_staff pr.1 none = .ok l ∧
        pr.2.staff = basis ∧
        pr.2.clef = l.clef.map (· + (basis - l.staff)) ∧
        pr.2.key_signature = l.key_signature.map (· + (basis - l.staff)) ∧
        pr.2.time_signature = l.time_signature) := by
  have hA : StaffGroup.fringe_layout_for_isolated_staff exStaffA none =
      .ok ⟨0, -(7/2), some (-3), some (-1), some (-1)⟩ := by
    simp [StaffGroup.fringe_layout_for_isolated_staff,
      StaffGroup.fringe_layout_for_isolated_staff_at, Staff.active_clef_at,
      Staff.active_key_signature_at, Staff.time_signature_exactly_at,
      Staff.clefs, Staff.key_signatures, Staff.time_signatures, Staff.unit,
      StaffGroup.RIGHT_PADDING, StaffGroup.LEFT_PADDING,
      StaffGroup.KEY_SIG_LEFT_PADDING, StaffGroup.TIME_SIG_LEFT_PADDING,
      exStaffA]
    norm_num
  have hB : StaffGroup.fringe_layout_for_isolated_staff exStaffB none =
      .ok ⟨0, -(13/2), some (-6), some (-1), some (-1)⟩ := by
    simp [StaffGroup.fringe_layout_for_isolated_staff,
      StaffGroup.fringe_layout_for_isolated_staff_at, Staff.active_clef_at,
      Staff.active_key_signature_at, Staff.time_signature_exactly_at,
      Staff.clefs, Staff.key_signatures, Staff.time_signatures, Staff.unit,
      StaffGroup.RIGHT_PADDING, StaffGroup.LEFT_PADDING,
      StaffGroup.KEY_SIG_LEFT_PADDING, StaffGroup.TIME_SIG_LEFT_PADDING,
      exStaffB]
    norm_num
  have hcol : StaffGroup.collect_isolated none exGroup.staves =
      .ok [(exStaffA, ⟨0, -(7/2), some (-3), some (-1), some (-1)⟩),
        (exStaffB, ⟨0, -(13/2), some (-6), some (-1), some (-1)⟩)] := by
    show StaffGroup.collect_isolated none [exStaffA, exStaffB] = _
    rw [StaffGroup.collect_isolated, hA, StaffGroup.collect_isolated, hB,
      StaffGroup.collect_isolated]
  have hrun : exGroup.fringe_layout_at none = .ok exGroupLayouts := by
    rw [StaffGroup.fringe_layout_at, hcol]
    simp only [List.foldl_cons, List.foldl_nil, List.map_cons, List.map_nil,
      exGroupLayouts, StaffGroup.align_layout]
    norm_num [min_def]
  exact C1_group_alignment exGroup none exGroupLayouts hrun
    (by simp [exGroup])
    (by
      intro st hst
      simp only [exGroup, List.mem_cons, List.mem_singleton] at hst
      rcases hst with rfl | rfl | h
      · norm_num [exStaffA]
      · norm_num [exStaffB]
      · cases h)
    (by
      intro st hst p c hpc
      simp only [exGroup, List.mem_cons, List.mem_singleton] at hst
      rcases hst with rfl | rfl | h
      · simp only [exStaffA, List.mem_singleton] at hpc
        cases hpc
        norm_num
      · simp only [exStaffB, List.mem_singleton] at hpc
        cases hpc
        norm_num
      · cases h)
    (by
      intro st hst p k hpk
      simp only [exGroup, List.mem_cons, List.mem_singleton] at hst
      rcases hst with rfl | rfl | h
      · simp [exStaffA] at hpk
      · simp [exStaffB] at hpk
      · cases h)
    (by
      intro st hst p tsg hpt
      simp only [exGroup, List.mem_cons, List.mem_singleton] at hst
      rcases hst with rfl | rfl | h
      · simp [exStaffA] at hpt
      · simp [exStaffB] at hpt
      · cases h)

end NeoscoreSpec
